import Mathlib

/-!
Verification of the documentation-generation helpers in
`docs/gendoctools/common.py` (siconos).

Strings are modelled as `List Char`.  Python string primitives used by the
code (`str.replace`, `str.find`, `str.count`, `str.strip`, `str.split`,
`readlines`, glob matching) are embedded below; the seven utilities are then
translated function by function.  File I/O wrappers (open/read/write/move)
are modelled as the pure content transformation they perform.
-/

/-- ASCII model of the whitespace set used by Python `str.strip()` /
`str.isspace()` (the non-ASCII Unicode whitespace characters are not
modelled; none occurs in the repository's inputs). -/
def pyIsSpace (c : Char) : Bool :=
  c = ' ' || c = '\t' || c = '\n' || c = '\r' || c = '\x0b' || c = '\x0c'

/-- Python `s.lstrip()`: drop leading whitespace. -/
def pyLstrip (s : List Char) : List Char :=
  s.dropWhile pyIsSpace

/-- Python `s.rstrip()`: drop trailing whitespace. -/
def pyRstrip (s : List Char) : List Char :=
  (s.reverse.dropWhile pyIsSpace).reverse

/-- Python `s.strip()`: drop leading and trailing whitespace. -/
def pyStrip (s : List Char) : List Char :=
  pyRstrip (pyLstrip s)

/-- Python `s.replace(pat, repl)` (all non-overlapping occurrences, scanned
left to right), with explicit fuel so that the recursion is structural.
Each step consumes at least one character of `s`, so `s.length` is enough
fuel.  All call sites in `common.py` use a non-empty pattern. -/
def replaceAllFuel (pat repl : List Char) : Nat → List Char → List Char
  | 0, s => s
  | _ + 1, [] => []
  | fuel + 1, c :: cs =>
    if pat.isPrefixOf (c :: cs) && !pat.isEmpty then
      repl ++ replaceAllFuel pat repl fuel ((c :: cs).drop pat.length)
    else
      c :: replaceAllFuel pat repl fuel cs

/-- Python `s.replace(pat, repl)` for a non-empty pattern `pat`. -/
def replaceAll (pat repl s : List Char) : List Char :=
  replaceAllFuel pat repl s.length s

/-- Python `s.find(c)` for a single-character needle: index of the first
occurrence.  Python returns `-1` when the needle is absent; this model
returns `s.length` instead (every use in `common.py` is guarded by a count
check that makes the needle present). -/
def pyFindChar (s : List Char) (c : Char) : Nat :=
  s.findIdx (fun x => x = c)

/-- `find_and_replace_math` from `common.py`:

    if content.count('$') > 1:
        start = content.find('$')
        end = content.find('$', start + 1)
        doxy_latex = content[start: end + 1]
        rst_latex = r':math:`' + doxy_latex[1:-1].strip() + r'`'
        content = content.replace(doxy_latex, rst_latex)
    return content
-/
def find_and_replace_math (content : List Char) : List Char :=
  if 1 < content.count '$' then
    let start := pyFindChar content '$'
    let stop := start + 1 + pyFindChar (content.drop (start + 1)) '$'
    let doxy_latex := (content.drop start).take (stop + 1 - start)
    let rst_latex := ":math:`".toList ++ pyStrip ((doxy_latex.drop 1).dropLast) ++ ['`']
    replaceAll doxy_latex rst_latex content
  else
    content

/-- C8: `find_and_replace_math` turns `"energy $E=mc^2$ conserved"` into
`"energy :math:`E=mc^2` conserved"`, and returns any input with at most one
`'$'` character unchanged. -/
theorem c8_math_example_and_no_dollar
    : find_and_replace_math "energy $E=mc^2$ conserved".toList
        = "energy :math:`E=mc^2` conserved".toList
      ∧ ∀ content : List Char, content.count '$' ≤ 1 →
          find_and_replace_math content = content := by
  constructor
  · decide
  · intro content h
    unfold find_and_replace_math
    rw [if_neg (by omega)]

/-- C8 witness: the general part of `c8_math_example_and_no_dollar`
applied to the one-dollar string `"cost: $5"`. -/
theorem c8_witness : find_and_replace_math "cost: $5".toList = "cost: $5".toList :=
  c8_math_example_and_no_dollar.2 "cost: $5".toList (by decide)

-- ### Generic lemmas about the embedded Python `str.replace`

/-- If the pattern occurs nowhere in `s`, `str.replace` leaves `s` unchanged
(any fuel). -/
theorem replaceAllFuel_no_occ (pat repl : List Char) :
    ∀ (fuel : Nat) (s : List Char),
      (∀ i, pat.isPrefixOf (s.drop i) = false) →
      replaceAllFuel pat repl fuel s = s := by
  intro fuel
  induction fuel with
  | zero => intro s _; rfl
  | succ f ih =>
    intro s h
    match s with
    | [] => rfl
    | c :: cs =>
      have h0 : pat.isPrefixOf (c :: cs) = false := by simpa using h 0
      have step : replaceAllFuel pat repl (f + 1) (c :: cs)
          = if pat.isPrefixOf (c :: cs) && !pat.isEmpty then
              repl ++ replaceAllFuel pat repl f ((c :: cs).drop pat.length)
            else c :: replaceAllFuel pat repl f cs := rfl
      rw [step, h0]
      simp only [Bool.false_and, Bool.false_eq_true, if_false]
      rw [ih cs (fun i => by simpa using h (i + 1))]

/-- If the unique occurrence of the (non-empty) pattern in `s` is the one at
position `a.length` in the decomposition `s = a ++ pat ++ b`, then
`str.replace` rewrites exactly that occurrence. -/
theorem replaceAllFuel_single (pat repl : List Char) (hpat : pat ≠ []) :
    ∀ (a : List Char) (b : List Char) (fuel : Nat),
      (a ++ pat ++ b).length ≤ fuel →
      (∀ i, pat.isPrefixOf ((a ++ pat ++ b).drop i) = true → i = a.length) →
      replaceAllFuel pat repl fuel (a ++ pat ++ b) = a ++ repl ++ b := by
  intro a
  induction a with
  | nil =>
    intro b fuel hfuel huniq
    match pat, hpat with
    | p :: pt, _ =>
      match fuel with
      | 0 => simp at hfuel
      | f + 1 =>
        have hpre : (p :: pt).isPrefixOf ((p :: pt) ++ b) = true :=
          List.isPrefixOf_iff_prefix.2 ( List.prefix_append _ _)
        have step : replaceAllFuel (p :: pt) repl (f + 1) ([] ++ (p :: pt) ++ b)
            = if (p :: pt).isPrefixOf ((p :: pt) ++ b) && !(p :: pt).isEmpty then
                repl ++ replaceAllFuel (p :: pt) repl f (((p :: pt) ++ b).drop (p :: pt).length)
              else p :: replaceAllFuel (p :: pt) repl f (pt ++ b) := rfl
        rw [step, hpre]
        simp only [List.isEmpty_cons, Bool.not_false, Bool.and_true, if_true]
        rw [List.drop_left]
        rw [replaceAllFuel_no_occ (p :: pt) repl f b]
        · simp
        · intro i
          by_contra hocc
          simp only [Bool.not_eq_false] at hocc
          have hdrop : b.drop i = (([] ++ (p :: pt) ++ b).drop (p :: pt).length).drop i := by
            simp [List.drop_left]
          have := huniq ((p :: pt).length + i)
          rw [← List.drop_drop] at this
          rw [hdrop] at hocc
          have hix := this hocc
          simp at hix
  | cons c a' ih =>
    intro b fuel hfuel huniq
    match fuel with
    | 0 => simp at hfuel
    | f + 1 =>
      have hnot : pat.isPrefixOf (c :: (a' ++ pat ++ b)) = false := by
        cases hP : pat.isPrefixOf (c :: (a' ++ pat ++ b)) with
        | false => rfl
        | true =>
          have := huniq 0 (by simpa using hP)
          simp at this
      have step : replaceAllFuel pat repl (f + 1) ((c :: a') ++ pat ++ b)
          = if pat.isPrefixOf (c :: (a' ++ pat ++ b)) && !pat.isEmpty then
              repl ++ replaceAllFuel pat repl f (((c :: a') ++ pat ++ b).drop pat.length)
            else c :: replaceAllFuel pat repl f (a' ++ pat ++ b) := rfl
      rw [step, hnot]
      simp only [Bool.false_and, Bool.false_eq_true, if_false]
      rw [ih b f (by simp at hfuel ⊢; omega)
        (fun i hocc => by
          have := huniq (i + 1) (by simpa using hocc)
          simpa using this)]
      simp

/-- `str.replace` on a string holding exactly one occurrence of the
(non-empty) pattern replaces that occurrence and nothing else. -/
theorem replaceAll_single (pat repl : List Char) (hpat : pat ≠ [])
    (a b : List Char)
    (huniq : ∀ i, pat.isPrefixOf ((a ++ pat ++ b).drop i) = true → i = a.length) :
    replaceAll pat repl (a ++ pat ++ b) = a ++ repl ++ b :=
  replaceAllFuel_single pat repl hpat a b _ le_rfl huniq

/-- `findIdx` on `a ++ q :: r` where the predicate fails on all of `a` and
holds at `q` returns `a.length`. -/
theorem findIdx_append_first (p : Char → Bool) :
    ∀ (a : List Char) (q : Char) (r : List Char),
      (∀ c ∈ a, p c = false) → p q = true →
      List.findIdx p (a ++ q :: r) = a.length := by
  intro a
  induction a with
  | nil =>
    intro q r _ hq
    simp [List.findIdx_cons, hq]
  | cons c a' ih =>
    intro q r ha hq
    have hc : p c = false := ha c (by simp)
    have : List.findIdx p ((c :: a') ++ q :: r)
        = bif p c then 0 else List.findIdx p (a' ++ q :: r) + 1 :=
      List.findIdx_cons p c (a' ++ q :: r)
    rw [this, hc]
    simp [ih q r (fun x hx => ha x (by simp [hx])) hq]

/-- C1 counterexample: on `"$x$ and $x$"` (which has more than one `'$'`)
the second `$x$` pair does not appear in the output at all — Python's
`str.replace` rewrites every occurrence of the first delimited substring,
so the output `":math:`x` and :math:`x`"` contains no `'$'` character,
contradicting the claim that every later pair survives verbatim. -/
theorem c1_counterexample :
    1 < "$x$ and $x$".toList.count '$'
      ∧ find_and_replace_math "$x$ and $x$".toList = ":math:`x` and :math:`x`".toList
      ∧ (find_and_replace_math "$x$ and $x$".toList).count '$' = 0 := by
  refine ⟨by decide, by decide, by decide⟩

/-- C1 (amended): when the input contains two or more `'$'` characters and
the first `'$'`-delimited substring occurs exactly once in the input, only
that first pair is converted to the `:math:` role and the rest of the
string — in particular every later `$...$` pair — appears in the output
exactly as in the input.  (When the first delimited substring reoccurs,
`str.replace` also rewrites those occurrences.) -/
theorem c1_amended_first_pair (a m b : List Char)
    (ha : '$' ∉ a) (hm : '$' ∉ m)
    (huniq : ∀ i, i < (a ++ '$' :: (m ++ '$' :: b)).length →
        ('$' :: (m ++ ['$'])).isPrefixOf ((a ++ '$' :: (m ++ '$' :: b)).drop i) = true →
        i = a.length) :
    find_and_replace_math (a ++ '$' :: (m ++ '$' :: b))
      = a ++ ":math:`".toList ++ pyStrip m ++ '`' :: b := by
  have hcount : 1 < (a ++ '$' :: (m ++ '$' :: b)).count '$' := by
    have hca : a.count '$' = 0 := List.count_eq_zero.2 ha
    simp [List.count_append, List.count_cons, hca]
  have hstart : pyFindChar (a ++ '$' :: (m ++ '$' :: b)) '$' = a.length := by
    unfold pyFindChar
    exact findIdx_append_first _ a '$' (m ++ '$' :: b)
      (fun c hc => by
        simp only [decide_eq_false_iff_not]
        exact fun h => ha (h ▸ hc))
      (by simp)
  have hdrop1 : (a ++ '$' :: (m ++ '$' :: b)).drop (a.length + 1) = m ++ '$' :: b := by
    have : a ++ '$' :: (m ++ '$' :: b) = (a ++ ['$']) ++ (m ++ '$' :: b) := by simp
    rw [this, show a.length + 1 = (a ++ ['$']).length by simp, List.drop_left]
  have hfind2 : pyFindChar (m ++ '$' :: b) '$' = m.length := by
    unfold pyFindChar
    exact findIdx_append_first _ m '$' b
      (fun c hc => by
        simp only [decide_eq_false_iff_not]
        exact fun h => hm (h ▸ hc))
      (by simp)
  have hdrop0 : (a ++ '$' :: (m ++ '$' :: b)).drop a.length = '$' :: (m ++ '$' :: b) :=
    List.drop_left a _
  have htake : ('$' :: (m ++ '$' :: b)).take (m.length + 2) = '$' :: (m ++ ['$']) := by
    have : (m ++ '$' :: b).take (m.length + 1) = m ++ ['$'] := by
      have h1 : m ++ '$' :: b = (m ++ ['$']) ++ b := by simp
      rw [h1, show m.length + 1 = (m ++ ['$']).length by simp, List.take_left]
    simpa [List.take_succ_cons] using this
  unfold find_and_replace_math
  rw [if_pos hcount]
  simp only [hstart, hdrop1, hfind2]
  have harith : a.length + 1 + m.length + 1 - a.length = m.length + 2 := by omega
  rw [hdrop0, harith, htake]
  have hdl : (('$' :: (m ++ ['$'])).drop 1).dropLast = m := by
    simp [List.dropLast_concat]
  rw [hdl]
  have hsplit : a ++ '$' :: (m ++ '$' :: b) = a ++ ('$' :: (m ++ ['$'])) ++ b := by simp
  rw [hsplit, replaceAll_single _ _ (by simp) a b ?_]
  · simp
  · intro i hocc
    rcases Nat.lt_or_ge i (a ++ ('$' :: (m ++ ['$'])) ++ b).length with hlt | hge
    · exact huniq i (by simpa using hlt) (by simpa using hocc)
    · rw [List.drop_eq_nil_of_le hge] at hocc
      simp [List.isPrefixOf] at hocc

/-- C1 witness: the amended theorem at `a = "u "`, `m = "x"`,
`b = " $y$ w"`; the later pair `$y$` survives unchanged. -/
theorem c1_witness :
    find_and_replace_math ("u ".toList ++ '$' :: ("x".toList ++ '$' :: " $y$ w".toList))
      = "u ".toList ++ ":math:`".toList ++ pyStrip "x".toList ++ '`' :: " $y$ w".toList :=
  c1_amended_first_pair "u ".toList "x".toList " $y$ w".toList
    (by decide) (by decide) (by decide)

-- ### Doxygen config parser

/-- Helper for `pyReadlines`: accumulate the current line (reversed). -/
def splitLinesAux : List Char → List Char → List (List Char)
  | [], acc => if acc.isEmpty then [] else [acc.reverse]
  | c :: cs, acc =>
    if c = '\n' then (acc.reverse ++ ['\n']) :: splitLinesAux cs []
    else splitLinesAux cs (c :: acc)

/-- Python `f.readlines()` on a file whose content is `s`: split after every
newline, keeping the newline; a non-empty final segment without a newline is
kept as a last line. -/
def pyReadlines (s : List Char) : List (List Char) :=
  splitLinesAux s []

/-- Python `line.startswith(c)` for a single-character needle. -/
def lineStartsWith (l : List Char) (c : Char) : Bool :=
  match l with
  | [] => false
  | x :: _ => x = c

/-- Python `s.rsplit()[0]` (equivalently `s.split()[0]`): the first
whitespace-delimited token, or `none` when the string has no token
(in which case Python raises `IndexError`). -/
def firstToken (s : List Char) : Option (List Char) :=
  let tok := (s.dropWhile pyIsSpace).takeWhile (fun c => !pyIsSpace c)
  if tok.isEmpty then none else some tok

/-- Python `d.split('=')[1]`: the text strictly between the first `'='` and
the following `'='` (or the end of the string).  Callers guard with
`d.count('=') > 0`, so index 1 exists. -/
def eqSeg (d : List Char) : List Char :=
  ((d.dropWhile (fun c => c ≠ '=')).drop 1).takeWhile (fun c => c ≠ '=')

/-- Python `d.split('=')[0]`: the text before the first `'='`. -/
def eqHead (d : List Char) : List Char :=
  d.takeWhile (fun c => c ≠ '=')

/-- Insertion-ordered dictionary update, Python `dict` semantics:
an existing key keeps its position, a new key is appended. -/
def dictSet : List (List Char × List Char) → List Char → List Char →
    List (List Char × List Char)
  | [], k, v => [(k, v)]
  | (k', v') :: rest, k, v =>
    if k' = k then (k, v) :: rest else (k', v') :: dictSet rest k v

/-- Python `dict` lookup. -/
def dictGet : List (List Char × List Char) → List Char → Option (List Char)
  | [], _ => none
  | (k', v') :: rest, k => if k' = k then some v' else dictGet rest k

/-- Loop body of `parse_doxygen_config`: processes the filtered, stripped
lines, threading the dictionary and the `backup` variable (the `res[0]` of
the last `key = value` line; `none` while unassigned).  `none` as overall
result models the run-time faults of the Python code: `IndexError` from
`res[0].rsplit()[0]` on an all-whitespace left-hand side, and `NameError`
from reading `backup` before any assignment. -/
def parseConfigLoop : List (List Char) → List (List Char × List Char) →
    Option (List Char) → Option (List (List Char × List Char))
  | [], result, _ => some result
  | d :: rest, result, backup =>
    if 0 < d.count '=' then
      match firstToken (eqHead d) with
      | none => none
      | some k => parseConfigLoop rest (dictSet result k (eqSeg d)) (some (eqHead d))
    else
      match backup with
      | none => none
      | some lhs =>
        match firstToken lhs with
        | none => none
        | some k =>
          match dictGet result k with
          | none => none
          | some old => parseConfigLoop rest (dictSet result k (old ++ d)) backup

/-- `parse_doxygen_config` from `common.py`, applied to the file content:

    result = {}
    conf = [n.strip() for n in ff.readlines()
            if (not n.startswith('#') and not n.startswith('\n'))]
    for d in conf:
        if d.count('=') > 0:
            res = d.split('=')
            result[res[0].rsplit()[0]] = res[1]
            backup = res.copy()
        else:
            result[backup[0].rsplit()[0]] += d
    return result
-/
def parse_doxygen_config (content : List Char) : Option (List (List Char × List Char)) :=
  let conf := ((pyReadlines content).filter
      (fun n => !lineStartsWith n '#' && !lineStartsWith n '\n')).map pyStrip
  parseConfigLoop conf [] none

/-- C3 counterexample: on `"OUTPUT_DIRECTORY = build\n  continued\n"` the
parser does NOT return the claimed value `" build  continued\n"`: each line
is stripped before processing, so the continuation's leading whitespace and
both newlines are gone and the stored value is `" buildcontinued"`. -/
theorem c3_counterexample :
    parse_doxygen_config "OUTPUT_DIRECTORY = build\n  continued\n".toList
        ≠ some [("OUTPUT_DIRECTORY".toList, " build  continued\n".toList)] := by
  decide

/-- C3 (amended): `parse_doxygen_config` on
`"OUTPUT_DIRECTORY = build\n  continued\n"` returns the mapping
`OUTPUT_DIRECTORY ↦ " buildcontinued"`: every line is stripped of
surrounding whitespace (including the trailing newline) before processing,
and the stripped continuation text is appended directly to the value. -/
theorem c3_amended_strip_continuation :
    parse_doxygen_config "OUTPUT_DIRECTORY = build\n  continued\n".toList
        = some [("OUTPUT_DIRECTORY".toList, " buildcontinued".toList)] := by
  decide

-- ### Lemmas about the line and whitespace primitives

/-- `splitLinesAux` emits one line at the first newline. -/
theorem splitLinesAux_append (l : List Char) :
    ∀ (rest acc : List Char), '\n' ∉ l →
      splitLinesAux (l ++ '\n' :: rest) acc
        = (acc.reverse ++ l ++ ['\n']) :: splitLinesAux rest [] := by
  induction l with
  | nil => intro rest acc _; simp [splitLinesAux]
  | cons c l' ih =>
    intro rest acc hl
    have hc : c ≠ '\n' := fun h => hl (by simp [h])
    have : splitLinesAux ((c :: l') ++ '\n' :: rest) acc
        = splitLinesAux (l' ++ '\n' :: rest) (c :: acc) := by
      simp [splitLinesAux, hc]
    rw [this, ih rest (c :: acc) (fun h => hl (by simp [h]))]
    simp

/-- `readlines` of a one-line file. -/
theorem pyReadlines_single (l : List Char) (hl : '\n' ∉ l) :
    pyReadlines (l ++ ['\n']) = [l ++ ['\n']] := by
  have := splitLinesAux_append l [] [] hl
  simpa [pyReadlines, splitLinesAux] using this

/-- `readlines` of a two-line file. -/
theorem pyReadlines_two (l₁ l₂ : List Char) (h₁ : '\n' ∉ l₁) (h₂ : '\n' ∉ l₂) :
    pyReadlines (l₁ ++ '\n' :: (l₂ ++ ['\n'])) = [l₁ ++ ['\n'], l₂ ++ ['\n']] := by
  have ha := splitLinesAux_append l₁ (l₂ ++ ['\n']) [] h₁
  have hb := splitLinesAux_append l₂ [] [] h₂
  simp only [pyReadlines] at *
  rw [ha, hb]
  simp [splitLinesAux]

/-- `dropWhile` jumps over a block on which the predicate holds. -/
theorem dropWhile_append_true (p : Char → Bool) (a b : List Char)
    (ha : ∀ c ∈ a, p c = true) :
    (a ++ b).dropWhile p = b.dropWhile p := by
  induction a with
  | nil => simp
  | cons c a' ih =>
    have hc : p c = true := ha c (by simp)
    simp only [List.cons_append, List.dropWhile_cons, hc, if_true]
    exact ih (fun x hx => ha x (by simp [hx]))

/-- `dropWhile` stops at the first element falsifying the predicate. -/
theorem dropWhile_append_stop (p : Char → Bool) (x : List Char) (c : Char)
    (y : List Char) (hc : p c = false) :
    (x ++ c :: y).dropWhile p = x.dropWhile p ++ c :: y := by
  induction x with
  | nil => simp [List.dropWhile_cons, hc]
  | cons d x' ih =>
    by_cases hd : p d = true
    · simp only [List.cons_append, List.dropWhile_cons, hd, if_true]
      exact ih
    · have hd' : p d = false := by simpa using hd
      simp [List.dropWhile_cons, hd']

/-- `takeWhile` passes over a block on which the predicate holds. -/
theorem takeWhile_append_true (p : Char → Bool) (a b : List Char)
    (ha : ∀ c ∈ a, p c = true) :
    (a ++ b).takeWhile p = a ++ b.takeWhile p := by
  induction a with
  | nil => simp
  | cons c a' ih =>
    have hc : p c = true := ha c (by simp)
    simp only [List.cons_append, List.takeWhile_cons, hc, if_true]
    rw [ih (fun x hx => ha x (by simp [hx]))]

/-- `rstrip` keeps everything up to and including a trailing
non-whitespace character. -/
theorem pyRstrip_append_stop (x : List Char) (c : Char) (y : List Char)
    (hc : pyIsSpace c = false) :
    pyRstrip (x ++ c :: y) = x ++ c :: pyRstrip y := by
  unfold pyRstrip
  rw [show x ++ c :: y = x ++ [c] ++ y by simp]
  rw [List.reverse_append, List.reverse_append]
  simp only [List.reverse_cons, List.reverse_nil, List.nil_append]
  rw [show [c] ++ x.reverse = c :: x.reverse by simp]
  rw [dropWhile_append_stop pyIsSpace y.reverse c x.reverse hc]
  simp

/-- `rstrip` removes a trailing whitespace character. -/
theorem pyRstrip_append_space (x : List Char) (c : Char)
    (hc : pyIsSpace c = true) :
    pyRstrip (x ++ [c]) = pyRstrip x := by
  unfold pyRstrip
  simp [List.dropWhile_cons, hc]

/-- Membership in `rstrip` output implies membership in the input. -/
theorem mem_pyRstrip (c : Char) (l : List Char) (h : c ∈ pyRstrip l) : c ∈ l := by
  unfold pyRstrip at h
  rw [List.mem_reverse] at h
  have := (List.dropWhile_sublist pyIsSpace).mem h
  simpa using this

/-- `strip` of a string with a non-whitespace head only strips the right
end. -/
theorem pyStrip_of_head (c : Char) (t : List Char) (h : pyIsSpace c = false) :
    pyStrip (c :: t) = pyRstrip (c :: t) := by
  simp [pyStrip, pyLstrip, List.dropWhile_cons, h]

/-- `firstToken` of a whitespace-free non-empty token followed by a space. -/
theorem firstToken_token_space (k : List Char) (hk0 : k ≠ [])
    (hk_sp : ∀ c ∈ k, pyIsSpace c = false) :
    firstToken (k ++ [' ']) = some k := by
  obtain ⟨kc, kt, rfl⟩ := List.exists_cons_of_ne_nil hk0
  have hkc : pyIsSpace kc = false := hk_sp kc (by simp)
  have hdrop : ((kc :: kt) ++ [' ']).dropWhile pyIsSpace = (kc :: kt) ++ [' '] := by
    simp only [List.cons_append, List.dropWhile_cons, hkc]
    simp
  have htake : ((kc :: kt) ++ [' ']).takeWhile (fun c => !pyIsSpace c) = kc :: kt := by
    rw [takeWhile_append_true _ (kc :: kt) [' '] (fun c hc => by simp [hk_sp c hc])]
    simp [List.takeWhile_cons, pyIsSpace]
  simp only [firstToken, hdrop, htake]
  simp

/-- Processing a single stripped line of the shape `k ++ " =" ++ w`:
the key is `k` and the value is everything up to the next `'='`. -/
theorem parseConfigLoop_keyline (k w : List Char) (hk0 : k ≠ [])
    (hk_sp : ∀ c ∈ k, pyIsSpace c = false) (hk_eq : '=' ∉ k) :
    parseConfigLoop [k ++ [' '] ++ '=' :: w] [] none
      = some [(k, w.takeWhile (fun c => c ≠ '='))] := by
  have hpos : 0 < (k ++ [' '] ++ '=' :: w).count '=' :=
    List.count_pos_iff.2 (by simp)
  have hhead : eqHead (k ++ [' '] ++ '=' :: w) = k ++ [' '] := by
    unfold eqHead
    rw [show k ++ [' '] ++ '=' :: w = k ++ (' ' :: '=' :: w) by simp]
    rw [takeWhile_append_true _ k (' ' :: '=' :: w)
      (fun c hc => by simp; exact fun he => hk_eq (he ▸ hc))]
    simp [List.takeWhile_cons]
  have hseg : eqSeg (k ++ [' '] ++ '=' :: w) = w.takeWhile (fun c => c ≠ '=') := by
    unfold eqSeg
    rw [dropWhile_append_true _ (k ++ [' ']) ('=' :: w)
      (fun c hc => by
        simp only [List.mem_append, List.mem_singleton] at hc
        rcases hc with hc | hc
        · simp; exact fun he => hk_eq (he ▸ hc)
        · simp [hc])]
    rw [List.dropWhile_cons, if_neg (by simp)]
    simp
  simp only [parseConfigLoop]
  rw [if_pos hpos, hhead, firstToken_token_space k hk0 hk_sp, hseg]
  simp [parseConfigLoop, dictSet]

/-- C2 counterexample: on the line `"A = B=C"` the code stores `" B"` as the
value — `d.split('=')` cuts at every `'='` and `res[1]` keeps only the text
between the first and second `'='` — not the claimed `" B=C"` (the full text
right of the first `'='`). -/
theorem c2_counterexample :
    parse_doxygen_config "A = B=C\n".toList = some [("A".toList, " B".toList)]
      ∧ parse_doxygen_config "A = B=C\n".toList ≠ some [("A".toList, " B=C".toList)] :=
  ⟨by decide, by decide⟩

/-- C2 (amended): for a `key = value` config line, the key is the first
whitespace-delimited token left of the first `'='`; the stored value is the
text strictly between the first `'='` and the second `'='` (any text from a
second `'='` onward is discarded), and for a line with exactly one `'='` it
is all the text right of it (the line having first been stripped of
surrounding whitespace). -/
theorem c2_amended_split_segments (k v z : List Char) (hk0 : k ≠ [])
    (hk_sp : ∀ c ∈ k, pyIsSpace c = false) (hk_eq : '=' ∉ k) (hk_nl : '\n' ∉ k)
    (hk_hash : lineStartsWith k '#' = false)
    (hv_eq : '=' ∉ v) (hv_nl : '\n' ∉ v) (hz_nl : '\n' ∉ z) :
    parse_doxygen_config (k ++ ' ' :: '=' :: ' ' :: (v ++ '=' :: (z ++ ['\n'])))
        = some [(k, ' ' :: v)]
      ∧ parse_doxygen_config (k ++ ' ' :: '=' :: ' ' :: (v ++ ['\n']))
        = some [(k, pyRstrip (' ' :: v))] := by
  obtain ⟨kc, kt, rfl⟩ := List.exists_cons_of_ne_nil hk0
  have hkc_sp : pyIsSpace kc = false := hk_sp kc (by simp)
  have hkc_hash : kc ≠ '#' := by simpa [lineStartsWith] using hk_hash
  have hkc_nl : kc ≠ '\n' := fun h => hk_nl (by simp [h])
  constructor
  · -- two '=' on the line: the value stops at the second '='
    have hc1 : (kc :: kt) ++ ' ' :: '=' :: ' ' :: (v ++ '=' :: (z ++ ['\n']))
        = ((kc :: kt) ++ ' ' :: '=' :: ' ' :: (v ++ '=' :: z)) ++ ['\n'] := by simp
    have hnl : '\n' ∉ (kc :: kt) ++ ' ' :: '=' :: ' ' :: (v ++ '=' :: z) := by
      intro h
      rcases List.mem_append.1 h with h | h
      · exact hk_nl h
      · rcases List.mem_cons.1 h with h | h
        · exact absurd h (by decide)
        rcases List.mem_cons.1 h with h | h
        · exact absurd h (by decide)
        rcases List.mem_cons.1 h with h | h
        · exact absurd h (by decide)
        rcases List.mem_append.1 h with h | h
        · exact hv_nl h
        rcases List.mem_cons.1 h with h | h
        · exact absurd h (by decide)
        · exact hz_nl h
    rw [hc1]
    unfold parse_doxygen_config
    rw [pyReadlines_single _ hnl]
    have hkeep :
        (!lineStartsWith (((kc :: kt) ++ ' ' :: '=' :: ' ' :: (v ++ '=' :: z)) ++ ['\n']) '#'
          && !lineStartsWith (((kc :: kt) ++ ' ' :: '=' :: ' ' :: (v ++ '=' :: z)) ++ ['\n']) '\n')
        = true := by
      simp [lineStartsWith, hkc_hash, hkc_nl]
    rw [List.filter_cons, if_pos hkeep]
    simp only [List.filter_nil, List.map_cons, List.map_nil]
    have hstrip : pyStrip (((kc :: kt) ++ ' ' :: '=' :: ' ' :: (v ++ '=' :: z)) ++ ['\n'])
        = (kc :: kt) ++ [' '] ++ '=' :: (' ' :: (v ++ '=' :: pyRstrip z)) := by
      have e1 : ((kc :: kt) ++ ' ' :: '=' :: ' ' :: (v ++ '=' :: z)) ++ ['\n']
          = kc :: (kt ++ ' ' :: '=' :: ' ' :: (v ++ '=' :: (z ++ ['\n']))) := by simp
      rw [e1, pyStrip_of_head kc _ hkc_sp]
      have e2 : kc :: (kt ++ ' ' :: '=' :: ' ' :: (v ++ '=' :: (z ++ ['\n'])))
          = ((kc :: kt) ++ ' ' :: '=' :: ' ' :: v) ++ '=' :: (z ++ ['\n']) := by simp
      rw [e2, pyRstrip_append_stop _ '=' _ (by decide),
        pyRstrip_append_space z '\n' (by decide)]
      simp
    rw [hstrip, parseConfigLoop_keyline (kc :: kt) _ (by simp) hk_sp hk_eq]
    have htw : (' ' :: (v ++ '=' :: pyRstrip z)).takeWhile (fun c => c ≠ '=') = ' ' :: v := by
      rw [show ' ' :: (v ++ '=' :: pyRstrip z) = (' ' :: v) ++ '=' :: pyRstrip z by simp]
      rw [takeWhile_append_true _ (' ' :: v) _ ?_]
      · rw [List.takeWhile_cons, if_neg (by simp)]
        simp
      · intro c hc
        rcases List.mem_cons.1 hc with h | h
        · simp [h]
        · simp only [decide_eq_true_eq]
          exact fun he => hv_eq (he ▸ h)
    rw [htw]
  · -- one '=' on the line: the value is the whole right-hand side
    have hc2 : (kc :: kt) ++ ' ' :: '=' :: ' ' :: (v ++ ['\n'])
        = ((kc :: kt) ++ ' ' :: '=' :: ' ' :: v) ++ ['\n'] := by simp
    have hnl2 : '\n' ∉ (kc :: kt) ++ ' ' :: '=' :: ' ' :: v := by
      intro h
      rcases List.mem_append.1 h with h | h
      · exact hk_nl h
      · rcases List.mem_cons.1 h with h | h
        · exact absurd h (by decide)
        rcases List.mem_cons.1 h with h | h
        · exact absurd h (by decide)
        rcases List.mem_cons.1 h with h | h
        · exact absurd h (by decide)
        · exact hv_nl h
    rw [hc2]
    unfold parse_doxygen_config
    rw [pyReadlines_single _ hnl2]
    have hkeep2 :
        (!lineStartsWith (((kc :: kt) ++ ' ' :: '=' :: ' ' :: v) ++ ['\n']) '#'
          && !lineStartsWith (((kc :: kt) ++ ' ' :: '=' :: ' ' :: v) ++ ['\n']) '\n')
        = true := by
      simp [lineStartsWith, hkc_hash, hkc_nl]
    rw [List.filter_cons, if_pos hkeep2]
    simp only [List.filter_nil, List.map_cons, List.map_nil]
    have hstrip2 : pyStrip (((kc :: kt) ++ ' ' :: '=' :: ' ' :: v) ++ ['\n'])
        = (kc :: kt) ++ [' '] ++ '=' :: pyRstrip (' ' :: v) := by
      have e1 : ((kc :: kt) ++ ' ' :: '=' :: ' ' :: v) ++ ['\n']
          = kc :: (kt ++ ' ' :: '=' :: ' ' :: (v ++ ['\n'])) := by simp
      rw [e1, pyStrip_of_head kc _ hkc_sp]
      have e2 : kc :: (kt ++ ' ' :: '=' :: ' ' :: (v ++ ['\n']))
          = ((kc :: kt) ++ [' ']) ++ '=' :: ((' ' :: v) ++ ['\n']) := by simp
      rw [e2, pyRstrip_append_stop _ '=' _ (by decide),
        pyRstrip_append_space (' ' :: v) '\n' (by decide)]
    rw [hstrip2, parseConfigLoop_keyline (kc :: kt) _ (by simp) hk_sp hk_eq]
    have htw2 : (pyRstrip (' ' :: v)).takeWhile (fun c => c ≠ '=') = pyRstrip (' ' :: v) := by
      rw [List.takeWhile_eq_self_iff]
      intro c hc
      have hmem := mem_pyRstrip c _ hc
      rcases List.mem_cons.1 hmem with h | h
      · simp [h]
      · simp only [decide_eq_true_eq]
        exact fun he => hv_eq (he ▸ h)
    rw [htw2]

/-- C2 witness: `c2_amended_split_segments` at `k = "KEY"`, `v = "a b"`,
`z = "c"`: `"KEY = a b=c"` stores `" a b"` (text before the second `'='`)
and `"KEY = a b"` stores `" a b"` (the whole right-hand side). -/
theorem c2_witness :
    parse_doxygen_config ("KEY".toList ++ ' ' :: '=' :: ' ' :: ("a b".toList ++ '=' :: ("c".toList ++ ['\n'])))
        = some [("KEY".toList, ' ' :: "a b".toList)]
      ∧ parse_doxygen_config ("KEY".toList ++ ' ' :: '=' :: ' ' :: ("a b".toList ++ ['\n']))
        = some [("KEY".toList, pyRstrip (' ' :: "a b".toList))] :=
  c2_amended_split_segments "KEY".toList "a b".toList "c".toList
    (by decide) (by decide) (by decide) (by decide) (by decide)
    (by decide) (by decide) (by decide)

/-- C10: a line made of whitespace followed by `'#'` is NOT discarded as a
comment (only a `'#'` in the very first column is): it is kept, stripped,
and — containing no `'='` — appended as a continuation to the current key's
value; if no key has been established yet, the parse faults (the Python
code raises `NameError` on the unbound `backup`). -/
theorem c10_indented_hash_is_continuation (w : Char) (ws t : List Char)
    (hw : pyIsSpace w = true) (hwn : w ≠ '\n')
    (hws : ∀ c ∈ ws, pyIsSpace c = true ∧ c ≠ '\n')
    (ht_eq : '=' ∉ t) (ht_nl : '\n' ∉ t) :
    parse_doxygen_config
        (['K', ' ', '=', ' ', 'v'] ++ '\n' :: ((w :: ws) ++ '#' :: (t ++ ['\n'])))
        = some [(['K'], [' ', 'v'] ++ '#' :: pyRstrip t)]
      ∧ parse_doxygen_config ((w :: ws) ++ '#' :: (t ++ ['\n'])) = none := by
  have hwh : w ≠ '#' := fun h => by rw [h] at hw; exact absurd hw (by decide)
  have hnl2 : '\n' ∉ (w :: ws) ++ '#' :: t := by
    intro h
    rcases List.mem_append.1 h with h | h
    · rcases List.mem_cons.1 h with h | h
      · exact hwn h.symm
      · exact (hws _ h).2 rfl
    · rcases List.mem_cons.1 h with h | h
      · exact absurd h (by decide)
      · exact ht_nl h
  have hstrip2 : pyStrip ((w :: ws) ++ '#' :: t ++ ['\n']) = '#' :: pyRstrip t := by
    unfold pyStrip pyLstrip
    rw [show (w :: ws) ++ '#' :: t ++ ['\n'] = (w :: ws) ++ ('#' :: (t ++ ['\n'])) by simp]
    rw [dropWhile_append_true pyIsSpace (w :: ws) _
      (fun c hc => by
        rcases List.mem_cons.1 hc with h | h
        · exact h ▸ hw
        · exact (hws c h).1)]
    rw [List.dropWhile_cons, if_neg (by decide)]
    have : '#' :: (t ++ ['\n']) = [] ++ '#' :: (t ++ ['\n']) := by simp
    rw [this, pyRstrip_append_stop [] '#' (t ++ ['\n']) (by decide),
      pyRstrip_append_space t '\n' (by decide)]
    simp
  have hcount2 : ¬ 0 < ('#' :: pyRstrip t).count '=' := by
    have h0 : (pyRstrip t).count '=' = 0 :=
      List.count_eq_zero.2 (fun h => ht_eq (mem_pyRstrip _ _ h))
    simp [List.count_cons, h0]
  have hkeep2 :
      (!lineStartsWith (((w :: ws) ++ '#' :: t) ++ ['\n']) '#'
        && !lineStartsWith (((w :: ws) ++ '#' :: t) ++ ['\n']) '\n') = true := by
    simp [lineStartsWith, hwh, hwn]
  constructor
  · have hc : ['K', ' ', '=', ' ', 'v'] ++ '\n' :: ((w :: ws) ++ '#' :: (t ++ ['\n']))
        = ['K', ' ', '=', ' ', 'v'] ++ '\n' :: (((w :: ws) ++ '#' :: t) ++ ['\n']) := by simp
    rw [hc]
    unfold parse_doxygen_config
    rw [pyReadlines_two _ _ (by decide) hnl2]
    rw [List.filter_cons, if_pos (by decide), List.filter_cons, if_pos hkeep2,
      List.filter_nil]
    simp only [List.map_cons, List.map_nil]
    rw [show pyStrip (['K', ' ', '=', ' ', 'v'] ++ ['\n']) = ['K', ' ', '=', ' ', 'v'] from by decide]
    rw [show ((w :: ws) ++ '#' :: t) ++ ['\n'] = (w :: ws) ++ '#' :: t ++ ['\n'] from by simp]
    rw [hstrip2]
    have step1 : parseConfigLoop (['K', ' ', '=', ' ', 'v'] :: ['#' :: pyRstrip t]) [] none
        = parseConfigLoop ['#' :: pyRstrip t] [(['K'], [' ', 'v'])] (some ['K', ' ']) := rfl
    rw [step1]
    simp only [parseConfigLoop]
    rw [if_neg hcount2]
    rfl
  · unfold parse_doxygen_config
    rw [show (w :: ws) ++ '#' :: (t ++ ['\n']) = ((w :: ws) ++ '#' :: t) ++ ['\n'] from by simp]
    rw [pyReadlines_single _ hnl2]
    rw [List.filter_cons, if_pos hkeep2, List.filter_nil]
    simp only [List.map_cons, List.map_nil]
    rw [show ((w :: ws) ++ '#' :: t) ++ ['\n'] = (w :: ws) ++ '#' :: t ++ ['\n'] from by simp]
    rw [hstrip2]
    simp only [parseConfigLoop]
    rw [if_neg hcount2]

/-- C10 witness: `c10_indented_hash_is_continuation` at `w = ' '`,
`ws = [' ']`, `t = " note"`. -/
theorem c10_witness :
    parse_doxygen_config
        (['K', ' ', '=', ' ', 'v'] ++ '\n' :: ((' ' :: [' ']) ++ '#' :: (" note".toList ++ ['\n'])))
        = some [(['K'], [' ', 'v'] ++ '#' :: pyRstrip " note".toList)]
      ∧ parse_doxygen_config ((' ' :: [' ']) ++ '#' :: (" note".toList ++ ['\n'])) = none :=
  c10_indented_hash_is_continuation ' ' [' '] " note".toList
    (by decide) (by decide) (by decide) (by decide) (by decide)

-- ### Identifier case folder

/-- ASCII model of Python `str.isupper` on one character (header stems are
ASCII identifiers). -/
def pyIsUpper (c : Char) : Bool :=
  65 ≤ c.toNat && c.toNat ≤ 90

/-- ASCII model of Python `str.lower` on one character. -/
def pyToLower (c : Char) : Char :=
  if pyIsUpper c then Char.ofNat (c.toNat + 32) else c

/-- `replace_uppercase_letters` from `common.py`: every uppercase letter is
replaced by `'_'` followed by its lowercase form; all other characters pass
through. -/
def replace_uppercase_letters : List Char → List Char
  | [] => []
  | c :: cs =>
    (if pyIsUpper c then ['_', pyToLower c] else [c]) ++ replace_uppercase_letters cs

/-- The underscore-doubling step of `get_xml_files`:
`fnwe.replace('_', '__')`. -/
def doubleUnderscores (s : List Char) : List Char :=
  replaceAll ['_'] ['_', '_'] s

/-- The composite transformation named by the claim and by spec section 8:
case-fold with the source's `replace_uppercase_letters`, then double
underscores with the source's `replace('_', '__')` step.  (In
`get_xml_files` itself the two steps run in the opposite order; the
doubling step is the same.) -/
def foldThenDouble (s : List Char) : List Char :=
  doubleUnderscores (replace_uppercase_letters s)

/-- `Char.ofNat` round-trips through `toNat` below the surrogate range. -/
theorem char_toNat_ofNat (n : Nat) (h : n < 55296) : (Char.ofNat n).toNat = n := by
  have hv : n.isValidChar := Or.inl h
  rw [Char.ofNat, dif_pos hv]
  rfl

/-- Lowercasing an uppercase ASCII letter yields a non-uppercase character. -/
theorem pyIsUpper_pyToLower (c : Char) (h : pyIsUpper c = true) :
    pyIsUpper (pyToLower c) = false := by
  unfold pyToLower
  rw [if_pos h]
  unfold pyIsUpper at h ⊢
  simp only [Bool.and_eq_true, decide_eq_true_eq] at h
  have h1 : c.toNat + 32 < 55296 := by omega
  rw [char_toNat_ofNat _ h1]
  have h2 : ¬ (c.toNat + 32 ≤ 90) := by omega
  simp [h2]

/-- The case folder distributes over concatenation. -/
theorem replace_uppercase_letters_append (x y : List Char) :
    replace_uppercase_letters (x ++ y)
      = replace_uppercase_letters x ++ replace_uppercase_letters y := by
  induction x with
  | nil => simp [replace_uppercase_letters]
  | cons c cs ih =>
    simp only [List.cons_append, replace_uppercase_letters, List.append_eq, ih,
      List.append_assoc]

/-- C5 counterexample: the composite "case-fold, then double underscores" is
NOT idempotent, not even on its own output: on the uppercase-containing stem
`"Ab"` the composite gives `"__ab"`, and a second application doubles the
underscores again to `"____ab"`. -/
theorem c5_counterexample :
    ("Ab".toList.any pyIsUpper = true)
      ∧ foldThenDouble "Ab".toList = "__ab".toList
      ∧ foldThenDouble (foldThenDouble "Ab".toList) ≠ foldThenDouble "Ab".toList := by
  refine ⟨by decide, by decide, by decide⟩

/-- C5 (amended): the case-folding step alone is idempotent — applying
`replace_uppercase_letters` to its own output returns that output unchanged
(folded output contains no uppercase letter); it is the underscore-doubling
step that destroys idempotence of the composite, as each application doubles
the underscores again. -/
theorem c5_amended_fold_idempotent (s : List Char) :
    replace_uppercase_letters (replace_uppercase_letters s)
      = replace_uppercase_letters s := by
  induction s with
  | nil => rfl
  | cons c cs ih =>
    have hcons : replace_uppercase_letters (c :: cs)
        = (if pyIsUpper c then ['_', pyToLower c] else [c])
          ++ replace_uppercase_letters cs := rfl
    rw [hcons, replace_uppercase_letters_append, ih]
    congr 1
    by_cases hc : pyIsUpper c = true
    · rw [if_pos hc]
      have h1 : pyIsUpper '_' = false := by decide
      have h2 : pyIsUpper (pyToLower c) = false := pyIsUpper_pyToLower c hc
      simp [replace_uppercase_letters, h1, h2]
    · have hc' : pyIsUpper c = false := by simpa using hc
      rw [if_neg hc]
      simp [replace_uppercase_letters, hc']

/-- C5 witness: `c5_amended_fold_idempotent` at the already-folded stem
`"_time_stepping"`. -/
theorem c5_witness :
    replace_uppercase_letters (replace_uppercase_letters "_time_stepping".toList)
      = replace_uppercase_letters "_time_stepping".toList :=
  c5_amended_fold_idempotent "_time_stepping".toList

-- ### XML file locator

/-- fnmatch-style glob matching as used by `pathlib.Path.glob` on a flat
file name: `'*'` matches any (possibly empty) character sequence, `'?'` any
single character; bracket classes are not modelled (no pattern built by
`common.py` contains one).  Explicit fuel keeps the recursion structural;
every step shrinks `pattern.length + name.length`, so that sum bounds the
depth. -/
def globMatchFuel : Nat → List Char → List Char → Bool
  | 0, _, _ => false
  | _ + 1, [], [] => true
  | _ + 1, [], _ :: _ => false
  | f + 1, '*' :: ps, [] => globMatchFuel f ps []
  | _ + 1, _ :: _, [] => false
  | f + 1, '*' :: ps, c :: cs =>
    globMatchFuel f ps (c :: cs) || globMatchFuel f ('*' :: ps) cs
  | f + 1, '?' :: ps, _ :: cs => globMatchFuel f ps cs
  | f + 1, p :: ps, c :: cs => (p = c) && globMatchFuel f ps cs

/-- `xml_path.glob(pattern)` membership test for one directory entry. -/
def globMatch (pat name : List Char) : Bool :=
  globMatchFuel (pat.length + name.length + 1) pat name

/-- `pathlib.Path(...).stem`: the file name without its final suffix
(the part from the last `'.'` on, when that `'.'` is not the first
character).  The degenerate trailing-dot case (`"a."`) is not modelled
faithfully; no input of the repository has it. -/
def pathStem (name : List Char) : List Char :=
  let pre := ((name.reverse.dropWhile (fun c => c ≠ '.')).drop 1).reverse
  if pre.isEmpty then name else pre

/-- `get_xml_files` from `common.py`, with the doxygen XML directory
modelled as its list of entry names:

    fnwe = header_name.stem
    fnwe = fnwe.replace('_', '__')
    if not case_sense_names:
        fnwe = replace_uppercase_letters(fnwe)
    classfiles = [f for f in xml_path.glob('class' + fnwe + '.xml')]
    structfiles = [f for f in xml_path.glob('struct' + fnwe + '.xml')]
    files8h = [f for f in xml_path.glob(fnwe + '_8h*.xml')]
    return classfiles + structfiles + files8h
-/
def get_xml_files (header_name : List Char) (xml_dir : List (List Char))
    (case_sense_names : Bool) : List (List Char) :=
  let fnwe0 := doubleUnderscores (pathStem header_name)
  let fnwe := if !case_sense_names then replace_uppercase_letters fnwe0 else fnwe0
  let classfiles := xml_dir.filter (fun f => globMatch ("class".toList ++ fnwe ++ ".xml".toList) f)
  let structfiles := xml_dir.filter (fun f => globMatch ("struct".toList ++ fnwe ++ ".xml".toList) f)
  let files8h := xml_dir.filter (fun f => globMatch (fnwe ++ "_8h*.xml".toList) f)
  classfiles ++ structfiles ++ files8h

/-- C6 counterexample: with `case_sense_names = False` the mangled stem of
`TimeStepping.h` is `_time_stepping` (single underscores: the underscore
doubling runs before case folding, and the stem has no underscore), so the
glob pattern is `class_time_stepping.xml` and the directory entry
`class_time__stepping.xml` (double underscore) is NOT matched: the result
is empty, not a list containing that file. -/
theorem c6_counterexample :
    get_xml_files "TimeStepping.h".toList ["class_time__stepping.xml".toList] false
      = [] := by
  decide

/-- C6 (amended): `get_xml_files` with `case_sense_names = False` for header
`TimeStepping.h` on a directory containing `class_time_stepping.xml`
(single underscores) returns that file. -/
theorem c6_amended_single_underscore :
    get_xml_files "TimeStepping.h".toList ["class_time_stepping.xml".toList] false
      = ["class_time_stepping.xml".toList] := by
  decide

-- ### Compound info extractor

/-- Model of an `xml.etree` element as read by `get_xml_compound_infos`:
tag name, optional `kind` attribute, text, tail, and the child elements. -/
structure XmlNode where
  tag : List Char
  attrKind : Option (List Char)
  text : Option (List Char)
  tail : Option (List Char)
  children : List XmlNode

mutual
/-- `elem.itertext()` flattened to one string: the element's own text
followed by, for each child, its flattened text and its tail. -/
def etItertext : XmlNode → List Char
  | XmlNode.mk _ _ text _ children => text.getD [] ++ etItertextList children

/-- `itertext` of a child sequence. -/
def etItertextList : List XmlNode → List Char
  | [] => []
  | c :: cs => (etItertext c ++ c.tail.getD []) ++ etItertextList cs
end

/-- `ET.tostring(elem, method='text')`: all text content, then the
element's own tail. -/
def etTostringText (n : XmlNode) : List Char :=
  etItertext n ++ n.tail.getD []

/-- Run-time faults of `get_xml_compound_infos`: a missing `kind` attribute
raises `KeyError`; a violated cardinality check raises `AssertionError`. -/
inductive XmlInfoError where
  | keyError : XmlInfoError
  | assertionError : XmlInfoError
deriving DecidableEq

/-- `get_xml_compound_infos` from `common.py`:

    kind = compound.attrib['kind']
    names = compound.findall('compoundname')
    descr = compound.findall('briefdescription')
    assert len(names) == 1
    assert len(descr) == 1
    content = descr[0].find('para')
    if content is not None:
        res = ET.tostring(content, method='text')
        res = '\n    '.join(res.decode().split('\n'))
        res = find_and_replace_math(res)
    else:
        res = ''
    return names[0].text, kind, res
-/
def get_xml_compound_infos (compound : XmlNode) :
    Except XmlInfoError (Option (List Char) × List Char × List Char) :=
  match compound.attrKind with
  | none => Except.error XmlInfoError.keyError
  | some kind =>
    let names := compound.children.filter (fun c => c.tag = "compoundname".toList)
    let descr := compound.children.filter (fun c => c.tag = "briefdescription".toList)
    match names, descr with
    | [n1], [d1] =>
      let res := match d1.children.find? (fun c => c.tag = "para".toList) with
        | some content =>
          find_and_replace_math (replaceAll ['\n'] "\n    ".toList (etTostringText content))
        | none => []
      Except.ok (n1.text, kind, res)
    | _, _ => Except.error XmlInfoError.assertionError

/-- C7: on a compound node carrying a `kind` attribute,
`get_xml_compound_infos` fails with the assertion fault whenever the node
does not have exactly one `compoundname` child and exactly one
`briefdescription` child; and when both counts are one and the brief
description has no `para` child, it returns the name, the kind, and the
empty string as description. -/
theorem c7_assert_and_empty_description :
    (∀ (compound : XmlNode) (k : List Char), compound.attrKind = some k →
      ¬ ((compound.children.filter (fun c => c.tag = "compoundname".toList)).length = 1
          ∧ (compound.children.filter (fun c => c.tag = "briefdescription".toList)).length = 1) →
      get_xml_compound_infos compound = Except.error XmlInfoError.assertionError)
    ∧ (∀ (compound : XmlNode) (k : List Char) (n1 d1 : XmlNode),
        compound.attrKind = some k →
        compound.children.filter (fun c => c.tag = "compoundname".toList) = [n1] →
        compound.children.filter (fun c => c.tag = "briefdescription".toList) = [d1] →
        d1.children.find? (fun c => c.tag = "para".toList) = none →
        get_xml_compound_infos compound = Except.ok (n1.text, k, [])) := by
  constructor
  · intro compound k hk hnot
    simp only [get_xml_compound_infos, hk]
    split
    · rename_i n1 d1 hN hD
      exact absurd ⟨by rw [hN]; rfl, by rw [hD]; rfl⟩ hnot
    · rfl
  · intro compound k n1 d1 hk hN hD hfind
    simp only [get_xml_compound_infos, hk, hN, hD, hfind]

/-- C7 witness: both parts of `c7_assert_and_empty_description` at concrete
nodes — a compound with no `compoundname` child faults, and a well-formed
compound whose brief description has no `para` child yields the empty
description. -/
theorem c7_witness :
    get_xml_compound_infos ⟨"compounddef".toList, some "class".toList, none, none, []⟩
        = Except.error XmlInfoError.assertionError
      ∧ get_xml_compound_infos
          ⟨"compounddef".toList, some "class".toList, none, none,
            [⟨"compoundname".toList, none, some "Foo".toList, none, []⟩,
             ⟨"briefdescription".toList, none, none, none, []⟩]⟩
        = Except.ok (some "Foo".toList, "class".toList, []) :=
  ⟨c7_assert_and_empty_description.1 _ "class".toList rfl (by decide),
   c7_assert_and_empty_description.2 _ "class".toList
     ⟨"compoundname".toList, none, some "Foo".toList, none, []⟩
     ⟨"briefdescription".toList, none, none, none, []⟩
     rfl rfl rfl rfl⟩

-- ### Latex placeholder tokens (replace_latex)

/-- Python `str(n)` for a formula id: its decimal digit string. -/
def pyStr (n : Nat) : List Char :=
  if n = 0 then ['0'] else ((Nat.digits 10 n).map Nat.digitChar).reverse

/-- The placeholder token `idf = 'FORMULA' + str(form) + '_'` built by
`replace_latex` for formula id `form`. -/
def idf (form : Nat) : List Char :=
  "FORMULA".toList ++ pyStr form ++ ['_']

/-- Verification helper (not part of the source): read a decimal digit
string back into the number it denotes. -/
def decValue (s : List Char) : Nat :=
  s.foldl (fun a c => 10 * a + (c.toNat - 48)) 0

/-- `decValue` inverts the digit rendering of `Nat.digits`. -/
theorem decValue_rev_digits (L : List Nat) (hL : ∀ d ∈ L, d < 10) :
    decValue ((L.map Nat.digitChar).reverse) = Nat.ofDigits 10 L := by
  induction L with
  | nil => rfl
  | cons d L ih =>
    have hd : d < 10 := hL d (by simp)
    have hrest : ∀ x ∈ L, x < 10 := fun x hx => hL x (by simp [hx])
    have hchar : (Nat.digitChar d).toNat - 48 = d := by interval_cases d <;> decide
    rw [List.map_cons, List.reverse_cons]
    unfold decValue
    rw [List.foldl_append]
    have : List.foldl (fun a c => 10 * a + (c.toNat - 48)) 0 ((L.map Nat.digitChar).reverse)
        = Nat.ofDigits 10 L := ih hrest
    simp only [List.foldl_cons, List.foldl_nil, this, hchar, Nat.ofDigits_cons]
    ring

/-- `decValue` is a left inverse of `pyStr`. -/
theorem decValue_pyStr (n : Nat) : decValue (pyStr n) = n := by
  unfold pyStr
  by_cases h : n = 0
  · subst h; decide
  · rw [if_neg h, decValue_rev_digits _ (fun d hd => Nat.digits_lt_base (by norm_num) hd)]
    exact Nat.ofDigits_digits 10 n

/-- Distinct ids render to distinct decimal strings. -/
theorem pyStr_inj (m n : Nat) (h : pyStr m = pyStr n) : m = n := by
  rw [← decValue_pyStr m, h, decValue_pyStr]

/-- Every character of `pyStr n` is a decimal digit. -/
theorem pyStr_digits (n : Nat) : ∀ c ∈ pyStr n, 48 ≤ c.toNat ∧ c.toNat ≤ 57 := by
  unfold pyStr
  by_cases h : n = 0
  · subst h; intro c hc; simp at hc; subst hc; decide
  · rw [if_neg h]
    intro c hc
    rw [List.mem_reverse] at hc
    obtain ⟨d, hd, rfl⟩ := List.mem_map.1 hc
    have hlt : d < 10 := Nat.digits_lt_base (by norm_num) hd
    interval_cases d <;> decide

/-- The placeholder token starts with `'F'`, and `'F'` never occurs later
in it. -/
theorem idf_cons (n : Nat) : idf n = 'F' :: (("ORMULA".toList ++ pyStr n) ++ ['_']) := rfl

/-- `'F'` does not occur in a placeholder token after position 0. -/
theorem f_not_in_idf_rest (n : Nat) : 'F' ∉ ("ORMULA".toList ++ pyStr n) ++ ['_'] := by
  intro h
  rcases List.mem_append.1 h with h | h
  · rcases List.mem_append.1 h with h | h
    · exact absurd h (by decide)
    · have hd := pyStr_digits n 'F' h
      have h70 : ('F' : Char).toNat = 70 := by decide
      rw [h70] at hd
      omega
  · exact absurd h (by decide)

/-- C9: for distinct numeric formula ids `i ≠ j`, the placeholder token
`'FORMULA' + str(i) + '_'` never occurs as a substring of the token
`'FORMULA' + str(j) + '_'` (the trailing underscore terminates the id), and
consequently the `line.replace` step of `replace_latex` for id `i` leaves
id `j`'s placeholder unaltered, whatever the substituted formula text. -/
theorem c9_placeholder_tokens_disjoint (i j : Nat) (hij : i ≠ j) :
    (∀ a b : List Char, idf j ≠ a ++ idf i ++ b)
      ∧ ∀ repl : List Char, replaceAll (idf i) repl (idf j) = idf j := by
  have hno : ∀ a b : List Char, idf j ≠ a ++ idf i ++ b := by
    intro a b heq
    cases a with
    | cons c a' =>
      rw [idf_cons j] at heq
      have heq' : 'F' :: (("ORMULA".toList ++ pyStr j) ++ ['_'])
          = c :: ((a' ++ idf i) ++ b) := heq
      injection heq' with hc hrest
      apply f_not_in_idf_rest j
      rw [hrest]
      have hFmem : 'F' ∈ idf i := by rw [idf_cons i]; simp
      exact List.mem_append.2 (Or.inl (List.mem_append.2 (Or.inr hFmem)))
    | nil =>
      simp only [List.nil_append, idf, List.append_assoc] at heq
      have hcan : pyStr j ++ ['_'] = pyStr i ++ (['_'] ++ b) :=
        List.append_cancel_left heq
      have hlen : (pyStr j).length + 1 = (pyStr i).length + (b.length + 1) := by
        have := congrArg List.length hcan
        simpa using this
      rcases Nat.lt_or_ge (pyStr i).length (pyStr j).length with hlt | hge
      · have hsplit : pyStr j ++ ['_']
            = (pyStr j).take (pyStr i).length
              ++ ((pyStr j).drop (pyStr i).length ++ ['_']) := by
          rw [← List.append_assoc, List.take_append_drop]
        rw [hsplit] at hcan
        have hlens : ((pyStr j).take (pyStr i).length).length = (pyStr i).length := by
          simp [List.length_take]
          omega
        obtain ⟨hfst, hsnd⟩ := List.append_inj hcan.symm (by rw [hlens])
        have hne : (pyStr j).drop (pyStr i).length ≠ [] := by
          intro h0
          have := congrArg List.length h0
          simp [List.length_drop] at this
          omega
        obtain ⟨e, es, hE⟩ := List.exists_cons_of_ne_nil hne
        rw [hE] at hsnd
        have hsnd' : '_' :: b = e :: (es ++ ['_']) := by simpa using hsnd
        injection hsnd' with he _
        have hmem : e ∈ pyStr j := by
          have : e ∈ (pyStr j).drop (pyStr i).length := by rw [hE]; simp
          exact (List.drop_sublist _ _).mem this
        have hd := pyStr_digits j e hmem
        rw [← he] at hd
        have h95 : ('_' : Char).toNat = 95 := by decide
        rw [h95] at hd
        omega
      · have heqlen : (pyStr i).length = (pyStr j).length := by omega
        obtain ⟨h1, _⟩ := List.append_inj hcan heqlen.symm
        exact hij (pyStr_inj j i h1).symm
  refine ⟨hno, fun repl => ?_⟩
  apply replaceAllFuel_no_occ
  intro pos
  cases hP : (idf i).isPrefixOf ((idf j).drop pos) with
  | false => rfl
  | true =>
    have hpre := List.isPrefixOf_iff_prefix.1 hP
    obtain ⟨t, ht⟩ := hpre
    have hdecomp : idf j = (idf j).take pos ++ idf i ++ t := by
      conv_lhs => rw [← List.take_append_drop pos (idf j)]
      rw [← ht, ← List.append_assoc]
    exact absurd hdecomp (hno ((idf j).take pos) t)

/-- C9 witness: `c9_placeholder_tokens_disjoint` at ids `1` and `12`:
`FORMULA1_` is not a substring of `FORMULA12_`, and substituting `x^2` for
id 1 leaves id 12's placeholder unchanged. -/
theorem c9_witness :
    idf 12 ≠ "FO".toList ++ idf 1 ++ "_x".toList
      ∧ replaceAll (idf 1) "x^2".toList (idf 12) = idf 12 :=
  ⟨(c9_placeholder_tokens_disjoint 1 12 (by decide)).1 "FO".toList "_x".toList,
   (c9_placeholder_tokens_disjoint 1 12 (by decide)).2 "x^2".toList⟩

-- ### Formula escaper (dot-confusion fix)

/-- `filter_dot_in_xml_formulas` from `common.py`, modelled as the content
transformation it performs: read the file, run
`lines.replace(r'\\dot', r'\dot')` — pattern backslash-backslash-d-o-t,
replacement backslash-d-o-t — write to a temp file and move it over the
original. -/
def filter_dot_in_xml_formulas (content : List Char) : List Char :=
  replaceAll ['\\', '\\', 'd', 'o', 't'] ['\\', 'd', 'o', 't'] content

/-- Membership from an indexed lookup. -/
theorem mem_of_getElem_eq_some (l : List Char) (i : Nat) (c : Char)
    (h : l[i]? = some c) : c ∈ l := by
  obtain ⟨hlt, rfl⟩ := List.getElem?_eq_some.1 h
  exact List.getElem_mem hlt

/-- In `a ++ mid ++ b` with backslash-free `a` and `b`, a backslash can only
sit inside the `mid` block. -/
theorem bs_in_mid (a mid b : List Char) (ha : '\\' ∉ a) (hb : '\\' ∉ b)
    (i : Nat) (hi : (a ++ mid ++ b)[i]? = some '\\') :
    a.length ≤ i ∧ i < a.length + mid.length := by
  rcases Nat.lt_or_ge i a.length with h | h
  · exfalso
    rw [List.getElem?_append_left (by simp; omega)] at hi
    rw [List.getElem?_append_left h] at hi
    exact ha (mem_of_getElem_eq_some a i _ hi)
  · rcases Nat.lt_or_ge i (a.length + mid.length) with h2 | h2
    · exact ⟨h, h2⟩
    · exfalso
      rw [List.getElem?_append_right (by simp; omega)] at hi
      exact hb (mem_of_getElem_eq_some b _ _ hi)

/-- In `a ++ ['\\','\\','d','o','t'] ++ b` with backslash-free `a` and `b`,
a backslash sits at index `a.length` or `a.length + 1`. -/
theorem bs_index_pat (a b : List Char) (ha : '\\' ∉ a) (hb : '\\' ∉ b)
    (i : Nat) (hi : (a ++ ['\\', '\\', 'd', 'o', 't'] ++ b)[i]? = some '\\') :
    i = a.length ∨ i = a.length + 1 := by
  obtain ⟨h1, h2⟩ := bs_in_mid a _ b ha hb i hi
  rcases Nat.lt_or_ge i (a.length + 2) with h3 | h3
  · omega
  · exfalso
    have hj : (a ++ ['\\', '\\', 'd', 'o', 't'] ++ b)[i]?
        = (['\\', '\\', 'd', 'o', 't'] : List Char)[i - a.length]? := by
      rw [List.append_assoc, List.getElem?_append_right (by omega),
        List.getElem?_append_left (by simp at h2 ⊢; omega)]
    rw [hj] at hi
    have hoff : i - a.length = 2 ∨ i - a.length = 3 ∨ i - a.length = 4 := by
      simp at h2
      omega
    rcases hoff with h | h | h <;> rw [h] at hi <;> exact absurd hi (by decide)

/-- In `a ++ ['\\','d','o','t'] ++ b` with backslash-free `a` and `b`, the
only backslash index is `a.length`. -/
theorem bs_index_repl (a b : List Char) (ha : '\\' ∉ a) (hb : '\\' ∉ b)
    (i : Nat) (hi : (a ++ ['\\', 'd', 'o', 't'] ++ b)[i]? = some '\\') :
    i = a.length := by
  obtain ⟨h1, h2⟩ := bs_in_mid a _ b ha hb i hi
  rcases Nat.lt_or_ge i (a.length + 1) with h3 | h3
  · omega
  · exfalso
    have hj : (a ++ ['\\', 'd', 'o', 't'] ++ b)[i]?
        = (['\\', 'd', 'o', 't'] : List Char)[i - a.length]? := by
      rw [List.append_assoc, List.getElem?_append_right (by omega),
        List.getElem?_append_left (by simp at h2 ⊢; omega)]
    rw [hj] at hi
    have hoff : i - a.length = 1 ∨ i - a.length = 2 ∨ i - a.length = 3 := by
      simp at h2
      omega
    rcases hoff with h | h | h <;> rw [h] at hi <;> exact absurd hi (by decide)

/-- A match of the two-backslash pattern at position `i` forces backslashes
at `i` and `i + 1`. -/
theorem bs_pair_at_match (s : List Char) (i : Nat)
    (h : (['\\', '\\', 'd', 'o', 't'] : List Char).isPrefixOf (s.drop i) = true) :
    s[i]? = some '\\' ∧ s[i + 1]? = some '\\' := by
  obtain ⟨t, ht⟩ := List.isPrefixOf_iff_prefix.1 h
  have h0 : (s.drop i)[0]? = some '\\' := by rw [← ht]; rfl
  have h1 : (s.drop i)[1]? = some '\\' := by rw [← ht]; rfl
  constructor
  · have hd := List.getElem?_drop s i 0
    rw [Nat.add_zero] at hd
    rw [← hd]
    exact h0
  · have hd := List.getElem?_drop s i 1
    rw [← hd]
    exact h1

/-- C4 counterexample: on a file containing three consecutive backslashes
before `dot`, the single replacement pass leaves a double-backslash-dot
occurrence in the output (the untouched first backslash merges with the
replacement's backslash), contradicting the claim that no occurrence
remains anywhere. -/
theorem c4_counterexample :
    filter_dot_in_xml_formulas ['\\', '\\', '\\', 'd', 'o', 't'] = ['\\', '\\', 'd', 'o', 't']
      ∧ (['\\', '\\', 'd', 'o', 't'] : List Char).isPrefixOf
          ((filter_dot_in_xml_formulas ['\\', '\\', '\\', 'd', 'o', 't']).drop 0) = true :=
  ⟨by decide, by decide⟩

/-- C4 (amended): when the double-backslash-dot occurrence is isolated —
no other backslash in the content — the rewrite replaces exactly that
occurrence, leaves every other byte unchanged, and the result contains no
double-backslash-dot occurrence at any position.  (With adjacent
backslashes, as in the counterexample, a new occurrence can appear.) -/
theorem c4_amended_isolated_occurrence (a b : List Char)
    (ha : '\\' ∉ a) (hb : '\\' ∉ b) :
    filter_dot_in_xml_formulas (a ++ ['\\', '\\', 'd', 'o', 't'] ++ b)
        = a ++ ['\\', 'd', 'o', 't'] ++ b
      ∧ ∀ i, (['\\', '\\', 'd', 'o', 't'] : List Char).isPrefixOf
          ((a ++ ['\\', 'd', 'o', 't'] ++ b).drop i) = false := by
  have huniq : ∀ i, (['\\', '\\', 'd', 'o', 't'] : List Char).isPrefixOf
      ((a ++ ['\\', '\\', 'd', 'o', 't'] ++ b).drop i) = true → i = a.length := by
    intro i hP
    obtain ⟨c0, c1⟩ := bs_pair_at_match _ i hP
    have e0 := bs_index_pat a b ha hb i c0
    have e1 := bs_index_pat a b ha hb (i + 1) c1
    omega
  constructor
  · exact replaceAll_single _ _ (by decide) a b huniq
  · intro i
    cases hP : (['\\', '\\', 'd', 'o', 't'] : List Char).isPrefixOf
        ((a ++ ['\\', 'd', 'o', 't'] ++ b).drop i) with
    | false => rfl
    | true =>
      exfalso
      obtain ⟨c0, c1⟩ := bs_pair_at_match _ i hP
      have e0 := bs_index_repl a b ha hb i c0
      have e1 := bs_index_repl a b ha hb (i + 1) c1
      omega

/-- C4 witness: `c4_amended_isolated_occurrence` at `a = "x "`, `b = " y"`,
with the no-occurrence part instantiated at position 0. -/
theorem c4_witness :
    filter_dot_in_xml_formulas ("x ".toList ++ ['\\', '\\', 'd', 'o', 't'] ++ " y".toList)
        = "x ".toList ++ ['\\', 'd', 'o', 't'] ++ " y".toList
      ∧ (['\\', '\\', 'd', 'o', 't'] : List Char).isPrefixOf
          (("x ".toList ++ ['\\', 'd', 'o', 't'] ++ " y".toList).drop 0) = false :=
  ⟨(c4_amended_isolated_occurrence "x ".toList " y".toList (by decide) (by decide)).1,
   (c4_amended_isolated_occurrence "x ".toList " y".toList (by decide) (by decide)).2 0⟩
